import Mathlib

/-!
Verification of the Connect 4 search core (`game.py`) against its
natural-language specification.

The board is the Python 6×7 list-of-rows (`self.board`), row 0 on top;
a cell is empty (`" "`), Player 1 (`"●"`) or Player 2 (`"○"`).  We embed
cells as `Option Player` and boards as `List (List Cell)`; reads go
through `getCell` (Python in-bounds indexing `board[row][col]`; all
source accesses are in bounds on a 6×7 board) and writes through
`setCell` (`board[row][col] = v`).  Scores mix integers with Python's
`float("inf")` / `float("-inf")`, embedded as the type `EInt` below.
-/

inductive Player where
  | p1 : Player
  | p2 : Player
deriving DecidableEq, Repr, Fintype

/-- The opponent of a symbol: `PLAYER_1 if s == PLAYER_2 else PLAYER_2`. -/
def other : Player → Player
  | Player.p1 => Player.p2
  | Player.p2 => Player.p1

abbrev Cell := Option Player

abbrev Board := List (List Cell)

/-- config.py: `ROW_COUNT = 6`. -/
def ROW_COUNT : Nat := 6

/-- config.py: `COLUMN_COUNT = 7`. -/
def COLUMN_COUNT : Nat := 7

/-- config.py: `SEARCH_DEPTH = 3`. -/
def SEARCH_DEPTH : Nat := 3

/-- Read `board[r][c]` (in-bounds in all source call sites). -/
def getCell (b : Board) (r c : Nat) : Cell := (b.getD r []).getD c none

/-- Write `board[r][c] = v`. -/
def setCell (b : Board) (r c : Nat) (v : Cell) : Board :=
  b.set r ((b.getD r []).set c v)

/-- The empty 6×7 board built by `__init__`. -/
def emptyBoard : Board := List.replicate 6 (List.replicate 7 (none : Cell))

/-- `is_valid_move`: `self.board[0][column] == " "`. -/
def is_valid_move (b : Board) (c : Nat) : Bool := getCell b 0 c == none

/-- `get_lowest_empty_row`, scanning `range(ROW_COUNT - 1, -1, -1)`:
fuel-indexed helper; `rowsLeft = r+1` examines row `r` next. -/
def lowestEmptyAux (b : Board) (c : Nat) : Nat → Option Nat
  | 0 => none
  | r + 1 => if getCell b r c = none then some r else lowestEmptyAux b c r

/-- `get_lowest_empty_row(column)`: lowest empty row of the column, bottom-up scan. -/
def get_lowest_empty_row (b : Board) (c : Nat) : Option Nat :=
  lowestEmptyAux b c ROW_COUNT

/-- `drop_disc(column, player_symbol)`: sets the lowest empty cell and returns
`True` on success, `False` if the column is full.  The Python method mutates
`self.board`; here the new board is returned alongside the Boolean result. -/
def drop_disc (b : Board) (c : Nat) (p : Player) : Board × Bool :=
  match get_lowest_empty_row b c with
  | some r => (setCell b r c (some p), true)
  | none => (b, false)

/-- `_simulate_drop(board, column, symbol)`: same bottom-up scan, but the row
is written as soon as it is found and returned (`None` if the column is full). -/
def simulateDropAux (b : Board) (c : Nat) (p : Player) : Nat → Option (Board × Nat)
  | 0 => none
  | r + 1 =>
    if getCell b r c = none then some (setCell b r c (some p), r)
    else simulateDropAux b c p r

/-- `_simulate_drop`: drops a disc on the working board, returning the new
board and the row hit, or `none` when the column is full. -/
def simulate_drop (b : Board) (c : Nat) (p : Player) : Option (Board × Nat) :=
  simulateDropAux b c p ROW_COUNT

inductive WinKind where
  | horizontal : WinKind
  | vertical : WinKind
  | diagonal : WinKind
deriving DecidableEq, Repr

/-- Horizontal scan of `check_winner`: rows `range(ROW_COUNT)`, start columns
`range(COLUMN_COUNT - 3)`. -/
def winH (b : Board) (p : Player) : Bool :=
  (List.range ROW_COUNT).any fun row =>
    (List.range (COLUMN_COUNT - 3)).any fun col =>
      (List.range 4).all fun i => getCell b row (col + i) == some p

/-- Vertical scan of `check_winner`. -/
def winV (b : Board) (p : Player) : Bool :=
  (List.range COLUMN_COUNT).any fun col =>
    (List.range (ROW_COUNT - 3)).any fun row =>
      (List.range 4).all fun i => getCell b (row + i) col == some p

/-- Diagonal `/` scan of `check_winner`: rows `range(3, ROW_COUNT)`,
columns `range(COLUMN_COUNT - 3)`, cells `board[row - i][col + i]`. -/
def winD1 (b : Board) (p : Player) : Bool :=
  (List.range' 3 (ROW_COUNT - 3)).any fun row =>
    (List.range (COLUMN_COUNT - 3)).any fun col =>
      (List.range 4).all fun i => getCell b (row - i) (col + i) == some p

/-- Diagonal `\` scan of `check_winner`: rows `range(3, ROW_COUNT)`,
columns `range(3, COLUMN_COUNT)`, cells `board[row - i][col - i]`. -/
def winD2 (b : Board) (p : Player) : Bool :=
  (List.range' 3 (ROW_COUNT - 3)).any fun row =>
    (List.range' 3 (COLUMN_COUNT - 3)).any fun col =>
      (List.range 4).all fun i => getCell b (row - i) (col - i) == some p

/-- `check_winner(player_symbol)`: first win kind found in the fixed scan
order (horizontal, vertical, `/` diagonal, `\` diagonal), else `None`. -/
def check_winner (b : Board) (p : Player) : Option WinKind :=
  if winH b p then some WinKind.horizontal
  else if winV b p then some WinKind.vertical
  else if winD1 b p then some WinKind.diagonal
  else if winD2 b p then some WinKind.diagonal
  else none

/-- `is_full()`: every column's top cell is non-empty. -/
def is_full (b : Board) : Bool :=
  (List.range COLUMN_COUNT).all fun col => !(getCell b 0 col == none)

/-- `assess_pattern(player_symbol, opponent_symbol, window)`: score of one
4-cell window, the two `if/elif` chains of the source applied in turn. -/
def assess_pattern (p o : Player) (w : List Cell) : Int :=
  let opponent_count := w.count (some o)
  let player_count := w.count (some p)
  let empty_count := w.count none
  let score : Int := 0
  let score :=
    if opponent_count = 4 then score - 100000
    else if opponent_count = 3 ∧ empty_count = 1 then score - 100
    else if opponent_count = 2 ∧ empty_count = 2 then score - 10
    else score
  let score :=
    if player_count = 4 then score + 100000
    else if player_count = 3 ∧ empty_count = 1 then score + 120
    else if player_count = 2 ∧ empty_count = 2 then score + 10
    else score
  score

/-- `evaluate_board(player_symbol)`: the four nested accumulation loops of the
source, one summand per direction. -/
def evaluate_board (b : Board) (p : Player) : Int :=
  let o := other p
  (((List.range ROW_COUNT).map fun row =>
      ((List.range (COLUMN_COUNT - 3)).map fun col =>
        assess_pattern p o ((List.range 4).map fun i => getCell b row (col + i))).sum).sum)
  + (((List.range COLUMN_COUNT).map fun col =>
      ((List.range (ROW_COUNT - 3)).map fun row =>
        assess_pattern p o ((List.range 4).map fun i => getCell b (row + i) col)).sum).sum)
  + (((List.range' 3 (ROW_COUNT - 3)).map fun row =>
      ((List.range (COLUMN_COUNT - 3)).map fun col =>
        assess_pattern p o ((List.range 4).map fun i => getCell b (row - i) (col + i))).sum).sum)
  + (((List.range' 3 (ROW_COUNT - 3)).map fun row =>
      ((List.range' 3 (COLUMN_COUNT - 3)).map fun col =>
        assess_pattern p o ((List.range 4).map fun i => getCell b (row - i) (col - i))).sum).sum)

/-- Score table of spec §4.2, written directly from the claim's wording. -/
def pattern_table (p o : Player) (w : List Cell) : Int :=
  if w.count (some o) = 4 then -100000
  else if w.count (some o) = 3 ∧ w.count none = 1 then -100
  else if w.count (some o) = 2 ∧ w.count none = 2 then -10
  else if w.count (some p) = 4 then 100000
  else if w.count (some p) = 3 ∧ w.count none = 1 then 120
  else if w.count (some p) = 2 ∧ w.count none = 2 then 10
  else 0

/-- Coordinates of the horizontal 4-cell windows of the 6×7 board. -/
def windowsH : List (List (Nat × Nat)) :=
  (List.range ROW_COUNT).flatMap fun row =>
    (List.range (COLUMN_COUNT - 3)).map fun col =>
      (List.range 4).map fun i => (row, col + i)

/-- Coordinates of the vertical 4-cell windows. -/
def windowsV : List (List (Nat × Nat)) :=
  (List.range COLUMN_COUNT).flatMap fun col =>
    (List.range (ROW_COUNT - 3)).map fun row =>
      (List.range 4).map fun i => (row + i, col)

/-- Coordinates of the `/` diagonal 4-cell windows. -/
def windowsD1 : List (List (Nat × Nat)) :=
  (List.range' 3 (ROW_COUNT - 3)).flatMap fun row =>
    (List.range (COLUMN_COUNT - 3)).map fun col =>
      (List.range 4).map fun i => (row - i, col + i)

/-- Coordinates of the `\` diagonal 4-cell windows. -/
def windowsD2 : List (List (Nat × Nat)) :=
  (List.range' 3 (ROW_COUNT - 3)).flatMap fun row =>
    (List.range' 3 (COLUMN_COUNT - 3)).map fun col =>
      (List.range 4).map fun i => (row - i, col - i)

/-- Every 4-cell window of the board, in all four directions. -/
def allWindows : List (List (Nat × Nat)) := windowsH ++ windowsV ++ windowsD1 ++ windowsD2

/-- Sum of `assess_pattern` over every 4-cell window in all four directions,
written from the claim's wording. -/
def windows_sum (b : Board) (p : Player) : Int :=
  (allWindows.map fun w =>
    assess_pattern p (other p) (w.map fun rc => getCell b rc.1 rc.2)).sum

/-- Scores of the search: integers extended with `float("-inf")` and
`float("inf")`. -/
inductive EInt where
  | negInf : EInt
  | fin : Int → EInt
  | posInf : EInt
deriving DecidableEq, Repr

namespace EInt

/-- Boolean comparison matching Python's ordering of numbers and infinities. -/
def ble : EInt → EInt → Bool
  | negInf, _ => true
  | fin _, negInf => false
  | fin a, fin b => a ≤ b
  | fin _, posInf => true
  | posInf, posInf => true
  | posInf, _ => false

instance : LinearOrder EInt where
  le a b := ble a b = true
  lt a b := ¬ ble b a = true
  le_refl a := by cases a <;> simp [ble, decide_eq_true_eq]
  le_trans a b c := by
    cases a <;> cases b <;> cases c <;> simp [ble, decide_eq_true_eq] <;> omega
  le_antisymm a b := by
    cases a <;> cases b <;> simp [ble, decide_eq_true_eq] <;> omega
  le_total a b := by
    cases a <;> cases b <;> simp [ble, decide_eq_true_eq] <;> omega
  lt_iff_le_not_le a b := by
    cases a <;> cases b <;> simp [ble, decide_eq_true_eq] <;> omega
  decidableLE a b := inferInstanceAs (Decidable (ble a b = true))
  decidableLT a b := inferInstanceAs (Decidable (¬ ble b a = true))

instance decLE (a b : EInt) : Decidable (a ≤ b) := inferInstanceAs (Decidable (ble a b = true))

instance decLT (a b : EInt) : Decidable (a < b) := inferInstanceAs (Decidable (¬ ble b a = true))

theorem negInf_le (a : EInt) : negInf ≤ a := by cases a <;> simp [LE.le, ble]

theorem le_posInf (a : EInt) : a ≤ posInf := by cases a <;> simp [LE.le, ble]

theorem not_lt_negInf (a : EInt) : ¬ a < negInf := not_lt.mpr (negInf_le a)

theorem not_posInf_lt (a : EInt) : ¬ posInf < a := not_lt.mpr (le_posInf a)

theorem max_negInf (a : EInt) : max a negInf = a := max_eq_left (negInf_le a)

theorem negInf_max (a : EInt) : max negInf a = a := max_eq_right (negInf_le a)

theorem min_posInf (a : EInt) : min a posInf = a := min_eq_left (le_posInf a)

theorem posInf_min (a : EInt) : min posInf a = a := min_eq_right (le_posInf a)

end EInt

/-- `valid_moves = [col for col in range(COLUMN_COUNT) if self.is_valid_move(col)]`. -/
def valid_moves (b : Board) : List Nat :=
  (List.range COLUMN_COUNT).filter fun c => is_valid_move b c

/-- The fixed move priority `[3, 2, 4, 1, 5, 0, 6]`. -/
def priority_order : List Nat := [3, 2, 4, 1, 5, 0, 6]

/-- `sorted(valid_moves, key=lambda col: priority_order.index(col))`: since the
priority keys of the columns 0–6 are pairwise distinct, the stable sort of the
valid columns by key enumerates `priority_order` restricted to the valid
columns (`ordered_moves_eq_sorted` below checks this against `mergeSort`). -/
def ordered_moves (b : Board) : List Nat :=
  priority_order.filter fun c => is_valid_move b c

/-- Maximising loop of `minimax_agent` (`for col in valid_moves: ...` with
`score > best_score` update, `alpha = max(alpha, best_score)` and the
`alpha >= beta` break).  `recur` is the recursive call at `depth - 1` with
`maximising_player = False`; a full column (unreachable for a valid move) is
skipped like the source's guard would leave the board untouched. -/
def max_loop (b : Board) (ai : Player) (recur : Board → EInt → EInt → Option Nat × EInt) :
    List Nat → EInt → EInt → Option Nat → EInt → Option Nat × EInt
  | [], _, _, bm, bs => (bm, bs)
  | c :: rest, alpha, beta, bm, bs =>
    match get_lowest_empty_row b c with
    | none => max_loop b ai recur rest alpha beta bm bs
    | some r =>
      let s := (recur (setCell b r c (some ai)) alpha beta).2
      let acc := if bs < s then (some c, s) else (bm, bs)
      let alpha' := max alpha acc.2
      if beta ≤ alpha' then acc
      else max_loop b ai recur rest alpha' beta acc.1 acc.2

/-- Minimising loop of `minimax_agent`: places the opponent symbol, updates on
`score < best_score`, `beta = min(beta, best_score)`, breaks on `alpha >= beta`. -/
def min_loop (b : Board) (ai : Player) (recur : Board → EInt → EInt → Option Nat × EInt) :
    List Nat → EInt → EInt → Option Nat → EInt → Option Nat × EInt
  | [], _, _, bm, bs => (bm, bs)
  | c :: rest, alpha, beta, bm, bs =>
    match get_lowest_empty_row b c with
    | none => min_loop b ai recur rest alpha beta bm bs
    | some r =>
      let s := (recur (setCell b r c (some (other ai))) alpha beta).2
      let acc := if s < bs then (some c, s) else (bm, bs)
      let beta' := min beta acc.2
      if beta' ≤ alpha then acc
      else min_loop b ai recur rest alpha beta' acc.1 acc.2

/-- `minimax_agent(alpha, beta, maximising_player, depth, ai_symbol)`:
win checks, then horizon/full-board evaluation, then the alpha-beta loops.
The board parameter makes the in-place recursion explicit: each simulated
move passes the updated board down and the caller's board is reused after
the undo (`minimax_restores_board` below verifies the undo discipline of the
mutating original). -/
def minimax_agent (ai : Player) : Nat → Board → EInt → EInt → Bool → Option Nat × EInt
  | 0, b, _, _, _ =>
    if (check_winner b ai).isSome then (none, EInt.posInf)
    else if (check_winner b (other ai)).isSome then (none, EInt.negInf)
    else (none, EInt.fin (evaluate_board b ai))
  | d + 1, b, alpha, beta, mx =>
    if (check_winner b ai).isSome then (none, EInt.posInf)
    else if (check_winner b (other ai)).isSome then (none, EInt.negInf)
    else if is_full b then (none, EInt.fin (evaluate_board b ai))
    else if mx then
      max_loop b ai (fun b' a' b'' => minimax_agent ai d b' a' b'' false)
        (ordered_moves b) alpha beta none EInt.negInf
    else
      min_loop b ai (fun b' a' b'' => minimax_agent ai d b' a' b'' true)
        (ordered_moves b) alpha beta none EInt.posInf

/-- Maximising loop of the exhaustive reference: same order, same strict
update, no alpha/beta, no break.  Written from the claim's wording. -/
def ref_max_loop (b : Board) (ai : Player) (recur : Board → Option Nat × EInt) :
    List Nat → Option Nat → EInt → Option Nat × EInt
  | [], bm, bs => (bm, bs)
  | c :: rest, bm, bs =>
    match get_lowest_empty_row b c with
    | none => ref_max_loop b ai recur rest bm bs
    | some r =>
      let s := (recur (setCell b r c (some ai))).2
      if bs < s then ref_max_loop b ai recur rest (some c) s
      else ref_max_loop b ai recur rest bm bs

/-- Minimising loop of the exhaustive reference. -/
def ref_min_loop (b : Board) (ai : Player) (recur : Board → Option Nat × EInt) :
    List Nat → Option Nat → EInt → Option Nat × EInt
  | [], bm, bs => (bm, bs)
  | c :: rest, bm, bs =>
    match get_lowest_empty_row b c with
    | none => ref_min_loop b ai recur rest bm bs
    | some r =>
      let s := (recur (setCell b r c (some (other ai)))).2
      if s < bs then ref_min_loop b ai recur rest (some c) s
      else ref_min_loop b ai recur rest bm bs

/-- Exhaustive minimax reference of the claim: identical to `minimax_agent`
except that every legal move is explored in the `[3,2,4,1,5,0,6]` order with
no pruning. -/
def minimax_ref (ai : Player) : Nat → Board → Bool → Option Nat × EInt
  | 0, b, _ =>
    if (check_winner b ai).isSome then (none, EInt.posInf)
    else if (check_winner b (other ai)).isSome then (none, EInt.negInf)
    else (none, EInt.fin (evaluate_board b ai))
  | d + 1, b, mx =>
    if (check_winner b ai).isSome then (none, EInt.posInf)
    else if (check_winner b (other ai)).isSome then (none, EInt.negInf)
    else if is_full b then (none, EInt.fin (evaluate_board b ai))
    else if mx then
      ref_max_loop b ai (fun b' => minimax_ref ai d b' false)
        (ordered_moves b) none EInt.negInf
    else
      ref_min_loop b ai (fun b' => minimax_ref ai d b' true)
        (ordered_moves b) none EInt.posInf

/-- `random_agent()`: a uniformly random choice among the valid columns,
modelled by an arbitrary draw index `pick` (`random.choice` picks the entry at
a uniform index of the list); `None` when no column is valid. -/
def random_agent (b : Board) (pick : Nat) : Option Nat :=
  let vm := valid_moves b
  if vm.isEmpty then none else some (vm.getD (pick % vm.length) 0)

/-- `minimax_agent_move(ai_symbol)`: the search at `SEARCH_DEPTH` with the
full window, maximising; falls back to `random_agent` when the search returns
no move.  The heuristic-delta logging places and removes the chosen disc on
the live board and does not affect the returned column. -/
def minimax_agent_move (ai : Player) (b : Board) (pick : Nat) : Option Nat :=
  match (minimax_agent ai SEARCH_DEPTH b EInt.negInf EInt.posInf true).1 with
  | some c => some c
  | none => random_agent b pick

/-- Python evaluation of `self.board[0][column]` for an arbitrary `int` column:
in-range and negative indices down to `-7` read a cell of the 7-cell top row
(`board[0][-k]` is `board[0][7 - k]`), anything else raises `IndexError`
(`none`). -/
def py_top_cell (b : Board) (c : Int) : Option Cell :=
  if 0 ≤ c ∧ c < 7 then some (getCell b 0 c.toNat)
  else if -7 ≤ c ∧ c < 0 then some (getCell b 0 (c + 7).toNat)
  else none

/-- `ml_agent_predict(model)` for a predictor output `pred = int(model.predict(...)[0])`:
returns the predicted column when `is_valid_move(pred)` holds, otherwise a
random valid column.  The outer `none` models the uncaught `IndexError` that
`is_valid_move` raises when `pred` is outside `[-7, 6]`; the inner option is
the Python return value. -/
def ml_agent_predict (b : Board) (pred : Int) (pick : Nat) : Option (Option Int) :=
  match py_top_cell b pred with
  | none => none
  | some cell =>
    if cell = none then some (some pred)
    else some ((random_agent b pick).map fun c => (c : Int))

/-- Loop of `_print_tree_recursive` over its valid columns: picks the symbol
from the node's `player_symbol` and role, simulates the drop, recurses with
flipped role and flipped symbol, undoes the drop, then does the role's
alpha/beta bookkeeping and the `alpha >= beta` break.  `recur` is the call at
`depth - 1`; text output and indentation do not affect the returned pair and
are omitted. -/
def tree_loop (recur : Board → Bool → EInt → EInt → Player → Option Nat × EInt)
    (bs : Board) (mx : Bool) (psym : Player) :
    List Nat → EInt → EInt → Option Nat → EInt → Option Nat × EInt
  | [], _, _, bm, bsc => (bm, bsc)
  | c :: rest, alpha, beta, bm, bsc =>
    let csym := if mx then psym else other psym
    match simulate_drop bs c csym with
    | none => tree_loop recur bs mx psym rest alpha beta bm bsc
    | some (bs', _) =>
      let s := (recur bs' (!mx) alpha beta (other csym)).2
      let acc : Option Nat × EInt :=
        if mx then (if bsc < s then (some c, s) else (bm, bsc))
        else (if s < bsc then (some c, s) else (bm, bsc))
      let alpha' := if mx then max alpha acc.2 else alpha
      let beta' := if mx then beta else min beta acc.2
      if beta' ≤ alpha' then acc
      else tree_loop recur bs mx psym rest alpha' beta' acc.1 acc.2

/-- `_print_tree_recursive(board_state, depth, maximising_player, indent,
alpha, beta, player_symbol, output_widget)`.  The GUI passes the live
`self.game.board` itself as `board_state`, so the `evaluate_board` leaf call
reads the board with the simulated discs in place; every simulated drop is
undone before the call returns, which the single threaded board models. -/
def print_tree_recursive : Nat → Board → Bool → EInt → EInt → Player → Option Nat × EInt
  | 0, bs, _, _, _, psym => (none, EInt.fin (evaluate_board bs psym))
  | d + 1, bs, mx, alpha, beta, psym =>
    let valid := (List.range COLUMN_COUNT).filter fun c => getCell bs 0 c == none
    if valid.isEmpty then (none, EInt.fin (evaluate_board bs psym))
    else
      tree_loop (fun b' mx' a' b'' ps' => print_tree_recursive d b' mx' a' b'' ps')
        bs mx psym valid alpha beta none (if mx then EInt.negInf else EInt.posInf)

/-- Maximising loop of `minimax_agent` with the in-place board mutation made
explicit: the board after the placement is handed to the recursive call, the
board the recursion hands back is the one the undo write hits, and the board
the loop finishes with is returned (`minimax_agent_t` threads it). -/
def max_loop_t (ai : Player) (recur : Board → EInt → EInt → (Option Nat × EInt) × Board) :
    List Nat → Board → EInt → EInt → Option Nat → EInt → (Option Nat × EInt) × Board
  | [], b, _, _, bm, bs => ((bm, bs), b)
  | c :: rest, b, alpha, beta, bm, bs =>
    match get_lowest_empty_row b c with
    | none => max_loop_t ai recur rest b alpha beta bm bs
    | some r =>
      let res := recur (setCell b r c (some ai)) alpha beta
      let b2 := setCell res.2 r c none
      let s := res.1.2
      let acc : Option Nat × EInt := if bs < s then (some c, s) else (bm, bs)
      let alpha' := max alpha acc.2
      if beta ≤ alpha' then (acc, b2)
      else max_loop_t ai recur rest b2 alpha' beta acc.1 acc.2

/-- Minimising loop of `minimax_agent` with the board mutation made explicit. -/
def min_loop_t (ai : Player) (recur : Board → EInt → EInt → (Option Nat × EInt) × Board) :
    List Nat → Board → EInt → EInt → Option Nat → EInt → (Option Nat × EInt) × Board
  | [], b, _, _, bm, bs => ((bm, bs), b)
  | c :: rest, b, alpha, beta, bm, bs =>
    match get_lowest_empty_row b c with
    | none => min_loop_t ai recur rest b alpha beta bm bs
    | some r =>
      let res := recur (setCell b r c (some (other ai))) alpha beta
      let b2 := setCell res.2 r c none
      let s := res.1.2
      let acc : Option Nat × EInt := if s < bs then (some c, s) else (bm, bs)
      let beta' := min beta acc.2
      if beta' ≤ alpha then (acc, b2)
      else min_loop_t ai recur rest b2 alpha beta' acc.1 acc.2

/-- `minimax_agent` with the mutated `self.board` threaded through every
placement, recursive call and undo write, exactly as the source mutates it;
the second component is the board as left behind when the call returns. -/
def minimax_agent_t (ai : Player) :
    Nat → Board → EInt → EInt → Bool → (Option Nat × EInt) × Board
  | 0, b, _, _, _ =>
    if (check_winner b ai).isSome then ((none, EInt.posInf), b)
    else if (check_winner b (other ai)).isSome then ((none, EInt.negInf), b)
    else ((none, EInt.fin (evaluate_board b ai)), b)
  | d + 1, b, alpha, beta, mx =>
    if (check_winner b ai).isSome then ((none, EInt.posInf), b)
    else if (check_winner b (other ai)).isSome then ((none, EInt.negInf), b)
    else if is_full b then ((none, EInt.fin (evaluate_board b ai)), b)
    else if mx then
      max_loop_t ai (fun b' a' b'' => minimax_agent_t ai d b' a' b'' false)
        (ordered_moves b) b alpha beta none EInt.negInf
    else
      min_loop_t ai (fun b' a' b'' => minimax_agent_t ai d b' a' b'' true)
        (ordered_moves b) b alpha beta none EInt.posInf

/-- An empty row of the 6×7 board. -/
def emptyRow : List Cell := List.replicate 7 none

/-- Board with `○ ○ ○` on the bottom row in columns 2–4: both columns 1 and 5
complete a horizontal four for Player 2, so every Player 1 move leaves
Player 2 an immediate win. -/
def doubleThreatBoard : Board :=
  [emptyRow, emptyRow, emptyRow, emptyRow, emptyRow,
   [none, none, some Player.p2, some Player.p2, some Player.p2, none, none]]

/-- Board whose columns 1–6 are completely full of Player 2 discs and whose
column 0 is empty: exactly one legal move. -/
def oneColumnBoard : Board :=
  List.replicate 6 ((none : Cell) :: List.replicate 6 (some Player.p2))

/-- Gravity invariant of the claim: in every column, every non-empty cell has
a non-empty cell directly below it (row indices grow downwards), i.e. the
non-empty cells of a column are exactly its bottommost cells. -/
def gravity_ok (b : Board) : Prop :=
  ∀ c < 7, ∀ r < 5, getCell b r c ≠ none → getCell b (r + 1) c ≠ none

instance gravity_ok_dec (b : Board) : Decidable (gravity_ok b) := by
  unfold gravity_ok
  infer_instance

/-- Four consecutive cells equal to `p` along some row, column, or diagonal
(in either diagonal direction) of the 6×7 board, written from the claim's
wording. -/
def has_four (b : Board) (p : Player) : Prop :=
  (∃ r < 6, ∃ c, c + 3 < 7 ∧ ∀ i < 4, getCell b r (c + i) = some p) ∨
  (∃ c < 7, ∃ r, r + 3 < 6 ∧ ∀ i < 4, getCell b (r + i) c = some p) ∨
  (∃ r, 3 ≤ r ∧ r < 6 ∧ ∃ c, c + 3 < 7 ∧ ∀ i < 4, getCell b (r - i) (c + i) = some p) ∨
  (∃ r, r + 3 < 6 ∧ ∃ c, c + 3 < 7 ∧ ∀ i < 4, getCell b (r + i) (c + i) = some p)

/-- Stable insertion by key: `x` goes after every already-placed element with
key `≤` its own, as Python's stable `sorted` would keep it. -/
def insertByKey (key : Nat → Nat) (x : Nat) : List Nat → List Nat
  | [] => [x]
  | y :: ys => if key y ≤ key x then y :: insertByKey key x ys else x :: y :: ys

/-- Stable insertion sort by key, modelling `sorted(valid_moves, key=...)`. -/
def sortByKey (key : Nat → Nat) : List Nat → List Nat
  | [] => []
  | x :: xs => insertByKey key x (sortByKey key xs)

/-- The literal translation of line 188 of game.py:
`sorted(valid_moves, key=lambda col: priority_order.index(col))`. -/
def sorted_moves (b : Board) : List Nat :=
  sortByKey (fun c => priority_order.indexOf c) (valid_moves b)

/-- Fail-soft guarantee of alpha-beta search, relating a pruned child
evaluation `f` (which receives the window) to the exhaustive child value `g`:
inside the window the two values agree exactly; a fail-low result bounds the
exhaustive value from above; a fail-high result bounds it from below. -/
def ABGuarantee (f : Board → EInt → EInt → EInt) (g : Board → EInt) : Prop :=
  ∀ b' alpha beta, alpha < beta →
    (f b' alpha beta ≤ alpha → g b' ≤ f b' alpha beta) ∧
    (beta ≤ f b' alpha beta → f b' alpha beta ≤ g b') ∧
    (alpha < f b' alpha beta → f b' alpha beta < beta → f b' alpha beta = g b')

theorem set_getD_ne {α : Type} (l : List α) (i j : Nat) (x d : α) (h : i ≠ j) :
    (l.set i x).getD j d = l.getD j d := by
  simp [List.getD_eq_getElem?_getD, List.getElem?_set_ne h]

theorem getD_of_length_le {α : Type} (l : List α) (i : Nat) (d : α) (h : l.length ≤ i) :
    l.getD i d = d := by
  simp [List.getD_eq_getElem?_getD, List.getElem?_eq_none h]

theorem set_getD_self {α : Type} (l : List α) (i : Nat) (x d : α) :
    (l.set i x).getD i d = if i < l.length then x else d := by
  by_cases h : i < l.length
  · simp [List.getD_eq_getElem?_getD, List.getElem?_set_self h, h]
  · have hle : l.length ≤ i := le_of_not_lt h
    rw [List.set_eq_of_length_le hle, getD_of_length_le l i d hle, if_neg h]

theorem set_getD_refl {α : Type} (l : List α) (i : Nat) (d : α) :
    l.set i (l.getD i d) = l := by
  induction l generalizing i with
  | nil => rfl
  | cons y ys ih =>
    cases i with
    | zero => rfl
    | succ j => simpa [List.set, List.getD] using ih j

theorem getCell_setCell_ne (b : Board) (r c r' c' : Nat) (v : Cell)
    (h : r' ≠ r ∨ c' ≠ c) : getCell (setCell b r c v) r' c' = getCell b r' c' := by
  by_cases hr : r' = r
  · subst hr
    rcases h with h | h
    · exact absurd rfl h
    · unfold getCell setCell
      rw [set_getD_self]
      by_cases hl : r' < b.length
      · rw [if_pos hl, set_getD_ne _ _ _ _ _ (fun he => h he.symm)]
      · rw [if_neg hl, getD_of_length_le _ _ _ (le_of_not_lt hl)]
  · unfold getCell setCell
    rw [set_getD_ne _ _ _ _ _ (fun he => hr he.symm)]

theorem getCell_setCell_self (b : Board) (r c : Nat) (v : Cell) :
    getCell (setCell b r c v) r c = v ∨
      getCell (setCell b r c v) r c = getCell b r c := by
  unfold getCell setCell
  rw [set_getD_self]
  by_cases hl : r < b.length
  · rw [if_pos hl, set_getD_self]
    by_cases hc : c < (b.getD r []).length
    · rw [if_pos hc]; exact Or.inl rfl
    · rw [if_neg hc, getD_of_length_le _ _ _ (le_of_not_lt hc)]; exact Or.inr rfl
  · rw [if_neg hl, getD_of_length_le _ _ _ (le_of_not_lt hl)]
    exact Or.inr rfl

theorem setCell_setCell (b : Board) (r c : Nat) (v w : Cell) :
    setCell (setCell b r c v) r c w = setCell b r c w := by
  by_cases hl : r < b.length
  · unfold setCell
    rw [set_getD_self, if_pos hl, List.set_set, List.set_set]
  · unfold setCell
    rw [List.set_eq_of_length_le (le_of_not_lt hl)]

theorem setCell_getCell_self (b : Board) (r c : Nat) :
    setCell b r c (getCell b r c) = b := by
  unfold setCell getCell
  rw [set_getD_refl, set_getD_refl]

theorem setCell_cancel (b : Board) (r c : Nat) (v : Cell) (h : getCell b r c = none) :
    setCell (setCell b r c v) r c none = b := by
  rw [setCell_setCell, ← h, setCell_getCell_self]

theorem lowestEmptyAux_some (b : Board) (c : Nat) (n r : Nat)
    (h : lowestEmptyAux b c n = some r) :
    r < n ∧ getCell b r c = none ∧ ∀ r', r < r' → r' < n → getCell b r' c ≠ none := by
  induction n with
  | zero => simp [lowestEmptyAux] at h
  | succ m ih =>
    unfold lowestEmptyAux at h
    by_cases hc : getCell b m c = none
    · rw [if_pos hc] at h
      obtain rfl : m = r := by injection h
      exact ⟨Nat.lt_succ_self m, hc, fun r' h1 h2 => absurd h1 (by omega)⟩
    · rw [if_neg hc] at h
      obtain ⟨h1, h2, h3⟩ := ih h
      refine ⟨by omega, h2, fun r' hlt hlt2 => ?_⟩
      rcases Nat.lt_succ_iff_lt_or_eq.mp hlt2 with h4 | rfl
      · exact h3 r' hlt h4
      · exact hc

theorem lowestEmptyAux_none (b : Board) (c : Nat) (n : Nat)
    (h : lowestEmptyAux b c n = none) : ∀ r < n, getCell b r c ≠ none := by
  induction n with
  | zero => intro r hr; omega
  | succ m ih =>
    unfold lowestEmptyAux at h
    by_cases hc : getCell b m c = none
    · rw [if_pos hc] at h; exact absurd h (by simp)
    · rw [if_neg hc] at h
      intro r hr
      rcases Nat.lt_succ_iff_lt_or_eq.mp hr with h4 | rfl
      · exact ih h r h4
      · exact hc

theorem get_lowest_empty_row_of_valid (b : Board) (c : Nat)
    (h : is_valid_move b c = true) : ∃ r, get_lowest_empty_row b c = some r := by
  cases he : get_lowest_empty_row b c with
  | some r => exact ⟨r, rfl⟩
  | none =>
    have h0 : getCell b 0 c ≠ none :=
      lowestEmptyAux_none b c ROW_COUNT he 0 (by norm_num [ROW_COUNT])
    have : getCell b 0 c = none := by simpa [is_valid_move] using h
    exact absurd this h0

theorem simulateDropAux_eq (b : Board) (c : Nat) (p : Player) (n : Nat) :
    simulateDropAux b c p n =
      (lowestEmptyAux b c n).map fun r => (setCell b r c (some p), r) := by
  induction n with
  | zero => rfl
  | succ m ih =>
    unfold simulateDropAux lowestEmptyAux
    by_cases hc : getCell b m c = none
    · rw [if_pos hc, if_pos hc]; rfl
    · rw [if_neg hc, if_neg hc, ih]

/-- C8 (amended): `drop_disc` scans the column bottom-up via
`get_lowest_empty_row`; when the column is full (every one of the six cells
non-empty) it returns `False` and leaves the board unchanged; otherwise it
sets the lowest empty cell — the cell of the returned row is empty and every
cell below it is occupied — to the symbol and returns `True`, the row index
itself being produced by `get_lowest_empty_row` and by `_simulate_drop`,
not by `drop_disc`'s return value. -/
theorem drop_disc_spec (b : Board) (c : Nat) (p : Player) :
    (get_lowest_empty_row b c = none →
      drop_disc b c p = (b, false) ∧ ∀ r < 6, getCell b r c ≠ none) ∧
    (∀ r, get_lowest_empty_row b c = some r →
      drop_disc b c p = (setCell b r c (some p), true) ∧
      simulate_drop b c p = some (setCell b r c (some p), r) ∧
      r < 6 ∧ getCell b r c = none ∧ ∀ r', r < r' → r' < 6 → getCell b r' c ≠ none) := by
  constructor
  · intro h
    refine ⟨by simp [drop_disc, h], ?_⟩
    exact lowestEmptyAux_none b c ROW_COUNT h
  · intro r h
    obtain ⟨h1, h2, h3⟩ := lowestEmptyAux_some b c ROW_COUNT r h
    refine ⟨by simp [drop_disc, h], ?_, h1, h2, h3⟩
    rw [simulate_drop, simulateDropAux_eq, show lowestEmptyAux b c ROW_COUNT = some r from h]
    rfl

/-- Witness for C8's amended theorem at the empty board, column 0. -/
theorem drop_disc_spec_witness :
    get_lowest_empty_row emptyBoard 0 = some 5 ∧
    (drop_disc emptyBoard 0 Player.p1 = (setCell emptyBoard 5 0 (some Player.p1), true) ∧
      simulate_drop emptyBoard 0 Player.p1 = some (setCell emptyBoard 5 0 (some Player.p1), 5) ∧
      5 < 6 ∧ getCell emptyBoard 5 0 = none ∧
      ∀ r', 5 < r' → r' < 6 → getCell emptyBoard r' 0 ≠ none) :=
  ⟨by decide, (drop_disc_spec emptyBoard 0 Player.p1).2 5 (by decide)⟩

/-- Counterexample to C8 as stated: two successful `drop_disc` calls that set
cells in different rows (row 5 on the empty board, row 4 once column 2
already holds one disc) return the same value `True`, so `drop_disc`'s return
value is a success flag, not the row index of the cell it set. -/
theorem drop_disc_returns_flag :
    (drop_disc emptyBoard 2 Player.p1).2 =
      (drop_disc (setCell emptyBoard 5 2 (some Player.p2)) 2 Player.p1).2 ∧
    get_lowest_empty_row emptyBoard 2 = some 5 ∧
    get_lowest_empty_row (setCell emptyBoard 5 2 (some Player.p2)) 2 = some 4 := by decide

/-- C10: dropping a disc (`drop_disc`, and likewise `_simulate_drop`)
preserves the gravity shape of the board: from a board whose columns have
their non-empty cells exactly at the bottom, the disc lands in the lowest
empty cell of its column, so no empty cell ever sits below a non-empty cell. -/
theorem drop_preserves_gravity (b : Board) (c : Nat) (p : Player) (hg : gravity_ok b) :
    gravity_ok (drop_disc b c p).1 ∧
    ∀ b' r, simulate_drop b c p = some (b', r) → gravity_ok b' := by
  have core : ∀ r, get_lowest_empty_row b c = some r →
      gravity_ok (setCell b r c (some p)) := by
    intro r h
    obtain ⟨h1, h2, h3⟩ := lowestEmptyAux_some b c ROW_COUNT r h
    intro c' hc' q hq hqne
    by_cases hcc : c' = c
    · subst hcc
      by_cases hqr : q = r
      · subst hqr
        rw [getCell_setCell_ne b q c' (q + 1) c' (some p) (Or.inl (by omega))]
        exact h3 (q + 1) (by omega) (by simp only [ROW_COUNT]; omega)
      · have hq' : getCell (setCell b r c' (some p)) q c' = getCell b q c' :=
          getCell_setCell_ne b r c' q c' (some p) (Or.inl hqr)
        rw [hq'] at hqne
        have hb : getCell b (q + 1) c' ≠ none := hg c' hc' q hq hqne
        by_cases hq1 : q + 1 = r
        · exact absurd (hq1 ▸ h2) hb
        · rw [getCell_setCell_ne b r c' (q + 1) c' (some p) (Or.inl hq1)]
          exact hb
    · have e1 : getCell (setCell b r c (some p)) q c' = getCell b q c' :=
        getCell_setCell_ne b r c q c' (some p) (Or.inr hcc)
      have e2 : getCell (setCell b r c (some p)) (q + 1) c' = getCell b (q + 1) c' :=
        getCell_setCell_ne b r c (q + 1) c' (some p) (Or.inr hcc)
      rw [e1] at hqne
      rw [e2]
      exact hg c' hc' q hq hqne
  constructor
  · cases h : get_lowest_empty_row b c with
    | none => simpa [drop_disc, h] using hg
    | some r => simpa [drop_disc, h] using core r h
  · intro b' r h
    rw [simulate_drop, simulateDropAux_eq] at h
    cases he : lowestEmptyAux b c ROW_COUNT with
    | none => rw [he] at h; simp at h
    | some r0 =>
      rw [he] at h
      rw [Option.map_some'] at h
      obtain ⟨hb, hr⟩ := Prod.mk.injEq .. ▸ Option.some.inj h
      subst hb
      exact core r0 he

/-- Witness for C10 at the empty board, column 3. -/
theorem drop_preserves_gravity_witness :
    gravity_ok emptyBoard ∧ gravity_ok (drop_disc emptyBoard 3 Player.p1).1 :=
  ⟨by decide, (drop_preserves_gravity emptyBoard 3 Player.p1 (by decide)).1⟩

/-- C9: `ml_agent_predict` does not treat out-of-range predictor output
safely.  A prediction of `9` on the empty board makes `is_valid_move` read
`board[0][9]`, an out-of-bounds access that raises an uncaught `IndexError`
(modelled as the outer `none`) instead of taking the random fallback; a
prediction of `-1` is accepted through Python negative indexing
(`board[0][-1]` is the top cell of column 6) and returned as the column `-1`
rather than being replaced by a random legal column. -/
theorem ml_agent_predict_unsafe :
    ml_agent_predict emptyBoard 9 0 = none ∧
    ml_agent_predict emptyBoard (-1) 0 = some (some (-1)) := by decide

/-- C1: the Tree Tracer does not return the Search Engine's pair.  On the
empty board at depth 1 with Player 1 to move and the full window, the engine
returns column 3 (the first column in the `[3,2,4,1,5,0,6]` priority order,
all depth-1 scores being 0) while the tracer, which walks columns in natural
`0..6` order, returns column 0. -/
theorem tracer_engine_mismatch :
    print_tree_recursive 1 emptyBoard true EInt.negInf EInt.posInf Player.p1 =
      (some 0, EInt.fin 0) ∧
    minimax_agent Player.p1 1 emptyBoard EInt.negInf EInt.posInf true =
      (some 3, EInt.fin 0) ∧
    (some 0 : Option Nat) ≠ some 3 := by decide

theorem sum_flatMap {α : Type} (l : List α) (f : α → List Int) :
    (l.flatMap f).sum = (l.map fun a => (f a).sum).sum := by
  induction l with
  | nil => rfl
  | cons x xs ih => simp [List.flatMap_cons, ih]

theorem evaluate_board_windows (b : Board) (p : Player) :
    evaluate_board b p = windows_sum b p := by
  unfold windows_sum allWindows
  rw [List.map_append, List.map_append, List.map_append,
      List.sum_append, List.sum_append, List.sum_append]
  unfold evaluate_board windowsH windowsV windowsD1 windowsD2
  rw [List.map_flatMap, List.map_flatMap, List.map_flatMap, List.map_flatMap,
      sum_flatMap, sum_flatMap, sum_flatMap, sum_flatMap]
  simp only [List.map_map, Function.comp_def]

theorem cells_of_length_four (w : List Cell) (h : w.length = 4) :
    ∃ a b c d : Cell, w = [a, b, c, d] := by
  cases w with
  | nil => simp at h
  | cons a t1 =>
    cases t1 with
    | nil => simp at h
    | cons b t2 =>
      cases t2 with
      | nil => simp at h
      | cons c t3 =>
        cases t3 with
        | nil => simp at h
        | cons d t4 =>
          cases t4 with
          | nil => exact ⟨a, b, c, d, rfl⟩
          | cons e t5 => simp at h

theorem assess_pattern_table_cases :
    ∀ (p o : Player), p ≠ o → ∀ (a b c d : Cell),
      assess_pattern p o [a, b, c, d] = pattern_table p o [a, b, c, d] := by decide

/-- C4: on every 4-cell window and pair of distinct symbols, `assess_pattern`
returns exactly the fixed table value, including the `+120` versus `-100`
asymmetry, and `evaluate_board` is the sum of `assess_pattern` over every
4-cell window of the board in all four directions. -/
theorem assess_and_evaluate_spec :
    (∀ (p o : Player), p ≠ o → ∀ w : List Cell, w.length = 4 →
      assess_pattern p o w = pattern_table p o w) ∧
    (∀ (b : Board) (p : Player), evaluate_board b p = windows_sum b p) := by
  constructor
  · intro p o hpo w hw
    obtain ⟨a, b, c, d, rfl⟩ := cells_of_length_four w hw
    exact assess_pattern_table_cases p o hpo a b c d
  · exact evaluate_board_windows

/-- Witness for C4 on a three-with-one-gap window (value `+120`). -/
theorem assess_and_evaluate_spec_witness :
    (Player.p1 ≠ Player.p2 ∧
      ([some Player.p1, some Player.p1, some Player.p1, none] : List Cell).length = 4) ∧
    assess_pattern Player.p1 Player.p2
        [some Player.p1, some Player.p1, some Player.p1, none] =
      pattern_table Player.p1 Player.p2
        [some Player.p1, some Player.p1, some Player.p1, none] ∧
    assess_pattern Player.p1 Player.p2
        [some Player.p1, some Player.p1, some Player.p1, none] = 120 :=
  ⟨⟨by decide, by decide⟩,
    assess_and_evaluate_spec.1 Player.p1 Player.p2 (by decide) _ (by decide),
    by decide⟩

theorem winH_iff (b : Board) (p : Player) :
    winH b p = true ↔ (∃ r < 6, ∃ c, c + 3 < 7 ∧ ∀ i < 4, getCell b r (c + i) = some p) := by
  unfold winH
  simp only [List.any_eq_true, List.all_eq_true, List.mem_range, beq_iff_eq,
    ROW_COUNT, COLUMN_COUNT]
  constructor
  · rintro ⟨r, hr, c, hc, h⟩
    exact ⟨r, hr, c, by omega, fun i hi => h i hi⟩
  · rintro ⟨r, hr, c, hc, h⟩
    exact ⟨r, hr, c, by omega, fun i hi => h i hi⟩

theorem winV_iff (b : Board) (p : Player) :
    winV b p = true ↔ (∃ c < 7, ∃ r, r + 3 < 6 ∧ ∀ i < 4, getCell b (r + i) c = some p) := by
  unfold winV
  simp only [List.any_eq_true, List.all_eq_true, List.mem_range, beq_iff_eq,
    ROW_COUNT, COLUMN_COUNT]
  constructor
  · rintro ⟨c, hc, r, hr, h⟩
    exact ⟨c, hc, r, by omega, fun i hi => h i hi⟩
  · rintro ⟨c, hc, r, hr, h⟩
    exact ⟨c, hc, r, by omega, fun i hi => h i hi⟩

theorem winD1_iff (b : Board) (p : Player) :
    winD1 b p = true ↔
      (∃ r, 3 ≤ r ∧ r < 6 ∧ ∃ c, c + 3 < 7 ∧ ∀ i < 4, getCell b (r - i) (c + i) = some p) := by
  unfold winD1
  simp only [List.any_eq_true, List.all_eq_true, List.mem_range, List.mem_range'_1,
    beq_iff_eq, ROW_COUNT, COLUMN_COUNT]
  constructor
  · rintro ⟨r, ⟨hr1, hr2⟩, c, hc, h⟩
    exact ⟨r, hr1, by omega, c, by omega, fun i hi => h i hi⟩
  · rintro ⟨r, hr1, hr2, c, hc, h⟩
    exact ⟨r, ⟨hr1, by omega⟩, c, by omega, fun i hi => h i hi⟩

theorem winD2_iff (b : Board) (p : Player) :
    winD2 b p = true ↔
      (∃ r, r + 3 < 6 ∧ ∃ c, c + 3 < 7 ∧ ∀ i < 4, getCell b (r + i) (c + i) = some p) := by
  unfold winD2
  simp only [List.any_eq_true, List.all_eq_true, List.mem_range, List.mem_range'_1,
    beq_iff_eq, ROW_COUNT, COLUMN_COUNT]
  constructor
  · rintro ⟨r, ⟨hr1, hr2⟩, c, ⟨hc1, hc2⟩, h⟩
    refine ⟨r - 3, by omega, c - 3, by omega, fun i hi => ?_⟩
    have h2 := h (3 - i) (by omega)
    have e1 : r - (3 - i) = r - 3 + i := by omega
    have e2 : c - (3 - i) = c - 3 + i := by omega
    rw [e1, e2] at h2
    exact h2
  · rintro ⟨r, hr, c, hc, h⟩
    refine ⟨r + 3, ⟨by omega, by omega⟩, c + 3, ⟨by omega, by omega⟩, fun i hi => ?_⟩
    have h2 := h (3 - i) (by omega)
    have e1 : r + 3 - i = r + (3 - i) := by omega
    have e2 : c + 3 - i = c + (3 - i) := by omega
    rw [e1, e2]
    exact h2

theorem check_winner_ne_none_iff (b : Board) (p : Player) :
    check_winner b p ≠ none ↔
      (winH b p = true ∨ winV b p = true ∨ winD1 b p = true ∨ winD2 b p = true) := by
  unfold check_winner
  split_ifs with h1 h2 h3 h4 <;> simp_all

/-- C3: `check_winner` returns a non-`None` result exactly when four
consecutive cells of the symbol lie along some row, some column, or some
diagonal (in either direction) of the 6×7 board. -/
theorem check_winner_iff :
    ∀ (b : Board) (p : Player), check_winner b p ≠ none ↔ has_four b p := by
  intro b p
  rw [check_winner_ne_none_iff, has_four, winH_iff, winV_iff, winD1_iff, winD2_iff]

theorem max_loop_t_board (ai : Player)
    (recur : Board → EInt → EInt → (Option Nat × EInt) × Board)
    (hrec : ∀ b' a' b'', (recur b' a' b'').2 = b') :
    ∀ (cs : List Nat) (b : Board) (alpha beta : EInt) (bm : Option Nat) (bs : EInt),
      (max_loop_t ai recur cs b alpha beta bm bs).2 = b := by
  intro cs
  induction cs with
  | nil => intro b alpha beta bm bs; rfl
  | cons c rest ih =>
    intro b alpha beta bm bs
    cases hrow : get_lowest_empty_row b c with
    | none => simp only [max_loop_t, hrow]; exact ih b alpha beta bm bs
    | some r =>
      have hempty : getCell b r c = none := (lowestEmptyAux_some b c ROW_COUNT r hrow).2.1
      simp only [max_loop_t, hrow]
      rw [hrec, setCell_cancel b r c (some ai) hempty]
      split
      · split
        · rfl
        · exact ih b _ beta _ _
      · split
        · rfl
        · exact ih b _ beta _ _

theorem min_loop_t_board (ai : Player)
    (recur : Board → EInt → EInt → (Option Nat × EInt) × Board)
    (hrec : ∀ b' a' b'', (recur b' a' b'').2 = b') :
    ∀ (cs : List Nat) (b : Board) (alpha beta : EInt) (bm : Option Nat) (bs : EInt),
      (min_loop_t ai recur cs b alpha beta bm bs).2 = b := by
  intro cs
  induction cs with
  | nil => intro b alpha beta bm bs; rfl
  | cons c rest ih =>
    intro b alpha beta bm bs
    cases hrow : get_lowest_empty_row b c with
    | none => simp only [min_loop_t, hrow]; exact ih b alpha beta bm bs
    | some r =>
      have hempty : getCell b r c = none := (lowestEmptyAux_some b c ROW_COUNT r hrow).2.1
      simp only [min_loop_t, hrow]
      rw [hrec, setCell_cancel b r c (some (other ai)) hempty]
      split
      · split
        · rfl
        · exact ih b alpha _ _ _
      · split
        · rfl
        · exact ih b alpha _ _ _

/-- C5: on every exit path of `minimax_agent` — win returns, horizon and
full-board returns, loop exhaustion, and the early `alpha >= beta` pruning
break — the board handed back is the board the call received: every placement
made while descending is undone while ascending. -/
theorem minimax_restores_board :
    ∀ (ai : Player) (d : Nat) (b : Board) (alpha beta : EInt) (mx : Bool),
      (minimax_agent_t ai d b alpha beta mx).2 = b := by
  intro ai d
  induction d with
  | zero =>
    intro b alpha beta mx
    unfold minimax_agent_t
    split_ifs <;> rfl
  | succ n ih =>
    intro b alpha beta mx
    unfold minimax_agent_t
    split_ifs with h1 h2 h3 h4
    · rfl
    · rfl
    · rfl
    · exact max_loop_t_board ai _ (fun b' a' b'' => ih b' a' b'' false)
        (ordered_moves b) b alpha beta none EInt.negInf
    · exact min_loop_t_board ai _ (fun b' a' b'' => ih b' a' b'' true)
        (ordered_moves b) b alpha beta none EInt.posInf

theorem max_loop_t_fst (ai : Player)
    (recur : Board → EInt → EInt → (Option Nat × EInt) × Board)
    (recur_p : Board → EInt → EInt → Option Nat × EInt)
    (hfst : ∀ b' a' b'', (recur b' a' b'').1 = recur_p b' a' b'')
    (hsnd : ∀ b' a' b'', (recur b' a' b'').2 = b') :
    ∀ (cs : List Nat) (b : Board) (alpha beta : EInt) (bm : Option Nat) (bs : EInt),
      (max_loop_t ai recur cs b alpha beta bm bs).1 =
        max_loop b ai recur_p cs alpha beta bm bs := by
  intro cs
  induction cs with
  | nil => intro b alpha beta bm bs; rfl
  | cons c rest ih =>
    intro b alpha beta bm bs
    cases hrow : get_lowest_empty_row b c with
    | none => simp only [max_loop_t, max_loop, hrow]; exact ih b alpha beta bm bs
    | some r =>
      have hempty : getCell b r c = none := (lowestEmptyAux_some b c ROW_COUNT r hrow).2.1
      simp only [max_loop_t, max_loop, hrow]
      rw [hsnd, setCell_cancel b r c (some ai) hempty, hfst]
      split
      · split
        · rfl
        · exact ih b _ beta _ _
      · split
        · rfl
        · exact ih b _ beta _ _

theorem min_loop_t_fst (ai : Player)
    (recur : Board → EInt → EInt → (Option Nat × EInt) × Board)
    (recur_p : Board → EInt → EInt → Option Nat × EInt)
    (hfst : ∀ b' a' b'', (recur b' a' b'').1 = recur_p b' a' b'')
    (hsnd : ∀ b' a' b'', (recur b' a' b'').2 = b') :
    ∀ (cs : List Nat) (b : Board) (alpha beta : EInt) (bm : Option Nat) (bs : EInt),
      (min_loop_t ai recur cs b alpha beta bm bs).1 =
        min_loop b ai recur_p cs alpha beta bm bs := by
  intro cs
  induction cs with
  | nil => intro b alpha beta bm bs; rfl
  | cons c rest ih =>
    intro b alpha beta bm bs
    cases hrow : get_lowest_empty_row b c with
    | none => simp only [min_loop_t, min_loop, hrow]; exact ih b alpha beta bm bs
    | some r =>
      have hempty : getCell b r c = none := (lowestEmptyAux_some b c ROW_COUNT r hrow).2.1
      simp only [min_loop_t, min_loop, hrow]
      rw [hsnd, setCell_cancel b r c (some (other ai)) hempty, hfst]
      split
      · split
        · rfl
        · exact ih b alpha _ _ _
      · split
        · rfl
        · exact ih b alpha _ _ _

/-- The board-threaded embedding and the pure embedding of `minimax_agent`
return the same `(best move, best score)` pair. -/
theorem minimax_agent_t_fst (ai : Player) :
    ∀ (d : Nat) (b : Board) (alpha beta : EInt) (mx : Bool),
      (minimax_agent_t ai d b alpha beta mx).1 = minimax_agent ai d b alpha beta mx := by
  intro d
  induction d with
  | zero =>
    intro b alpha beta mx
    unfold minimax_agent_t minimax_agent
    split_ifs <;> rfl
  | succ n ih =>
    intro b alpha beta mx
    unfold minimax_agent_t minimax_agent
    split_ifs with h1 h2 h3 h4
    · rfl
    · rfl
    · rfl
    · exact max_loop_t_fst ai _ _ (fun b' a' b'' => ih b' a' b'' false)
        (fun b' a' b'' => minimax_restores_board ai n b' a' b'' false)
        (ordered_moves b) b alpha beta none EInt.negInf
    · exact min_loop_t_fst ai _ _ (fun b' a' b'' => ih b' a' b'' true)
        (fun b' a' b'' => minimax_restores_board ai n b' a' b'' true)
        (ordered_moves b) b alpha beta none EInt.posInf

theorem max_loop_none_fst (b : Board) (ai : Player)
    (recur : Board → EInt → EInt → Option Nat × EInt) :
    ∀ (cs : List Nat) (alpha beta : EInt) (bm : Option Nat) (bs : EInt),
      (max_loop b ai recur cs alpha beta bm bs).1 = none →
      bm = none ∧ (max_loop b ai recur cs alpha beta bm bs).2 = bs := by
  intro cs
  induction cs with
  | nil => intro alpha beta bm bs h; exact ⟨h, rfl⟩
  | cons c rest ih =>
    intro alpha beta bm bs h
    cases hrow : get_lowest_empty_row b c with
    | none =>
      simp only [max_loop, hrow] at h ⊢
      exact ih alpha beta bm bs h
    | some r =>
      simp only [max_loop, hrow] at h ⊢
      by_cases hlt : bs < (recur (setCell b r c (some ai)) alpha beta).2
      · rw [if_pos hlt] at h ⊢
        by_cases hbr : beta ≤ max alpha (some c, (recur (setCell b r c (some ai)) alpha beta).2).2
        · rw [if_pos hbr] at h
          exact absurd h (by simp)
        · rw [if_neg hbr] at h
          have := (ih _ beta _ _ h).1
          exact absurd this (by simp)
      · rw [if_neg hlt] at h ⊢
        by_cases hbr : beta ≤ max alpha (bm, bs).2
        · rw [if_pos hbr] at h ⊢
          exact ⟨h, rfl⟩
        · rw [if_neg hbr] at h ⊢
          exact ih _ beta _ _ h

/-- C6 (amended): with the full window and `maximising_player = True`, at
depth at least 1, the search returns no move only when the board is full,
already contains a four-in-a-row (for either symbol), or every explored move
scored `-infinity` — the returned score is then `-infinity` (a position the
search judges lost no matter what), the one extra case the code adds to the
claim's "terminal or full". -/
theorem minimax_none_cases (ai : Player) (b : Board) (d : Nat) (hd : 1 ≤ d)
    (h : (minimax_agent ai d b EInt.negInf EInt.posInf true).1 = none) :
    is_full b = true ∨ (check_winner b ai).isSome = true ∨
      (check_winner b (other ai)).isSome = true ∨
      (minimax_agent ai d b EInt.negInf EInt.posInf true).2 = EInt.negInf := by
  cases d with
  | zero => omega
  | succ n =>
    by_cases h1 : (check_winner b ai).isSome = true
    · exact Or.inr (Or.inl h1)
    by_cases h2 : (check_winner b (other ai)).isSome = true
    · exact Or.inr (Or.inr (Or.inl h2))
    by_cases h3 : is_full b = true
    · exact Or.inl h3
    refine Or.inr (Or.inr (Or.inr ?_))
    have e : minimax_agent ai (n + 1) b EInt.negInf EInt.posInf true =
        max_loop b ai (fun b' a' b'' => minimax_agent ai n b' a' b'' false)
          (ordered_moves b) EInt.negInf EInt.posInf none EInt.negInf := by
      simp only [minimax_agent]
      simp [h1, h2, h3]
    rw [e] at h ⊢
    exact (max_loop_none_fst b ai _ (ordered_moves b)
      EInt.negInf EInt.posInf none EInt.negInf h).2

/-- Witness for C6's amended theorem: a board already won by Player 2. -/
theorem minimax_none_cases_witness :
    1 ≤ 1 ∧
    (minimax_agent Player.p1 1 oneColumnBoard EInt.negInf EInt.posInf true).1 = none ∧
    (is_full oneColumnBoard = true ∨
      (check_winner oneColumnBoard Player.p1).isSome = true ∨
      (check_winner oneColumnBoard (other Player.p1)).isSome = true ∨
      (minimax_agent Player.p1 1 oneColumnBoard EInt.negInf EInt.posInf true).2 =
        EInt.negInf) :=
  ⟨Nat.le_refl 1, by decide,
    minimax_none_cases Player.p1 oneColumnBoard 1 (Nat.le_refl 1) (by decide)⟩

/-- Counterexample to C6 as stated: on the double-threat board (Player 2 on
the bottom row in columns 2–4) at depth 2 the search returns no move —
every Player 1 move is answered by an immediate Player 2 win, so no child
beats the initial `-infinity` under the strict `>` — yet the board is neither
full nor contains any four-in-a-row. -/
theorem minimax_none_nonterminal :
    (minimax_agent Player.p1 2 doubleThreatBoard EInt.negInf EInt.posInf true).1 = none ∧
    is_full doubleThreatBoard = false ∧
    check_winner doubleThreatBoard Player.p1 = none ∧
    check_winner doubleThreatBoard Player.p2 = none := by decide

theorem max_loop_fst_mem (b : Board) (ai : Player)
    (recur : Board → EInt → EInt → Option Nat × EInt) :
    ∀ (cs : List Nat) (alpha beta : EInt) (bm : Option Nat) (bs : EInt) (c : Nat),
      (max_loop b ai recur cs alpha beta bm bs).1 = some c →
      c ∈ cs ∨ bm = some c := by
  intro cs
  induction cs with
  | nil => intro alpha beta bm bs c h; exact Or.inr h
  | cons c0 rest ih =>
    intro alpha beta bm bs c h
    cases hrow : get_lowest_empty_row b c0 with
    | none =>
      simp only [max_loop, hrow] at h
      rcases ih alpha beta bm bs c h with hm | hm
      · exact Or.inl (List.mem_cons_of_mem c0 hm)
      · exact Or.inr hm
    | some r =>
      simp only [max_loop, hrow] at h
      by_cases hlt : bs < (recur (setCell b r c0 (some ai)) alpha beta).2
      · rw [if_pos hlt] at h
        by_cases hbr : beta ≤ max alpha (some c0, (recur (setCell b r c0 (some ai)) alpha beta).2).2
        · rw [if_pos hbr] at h
          obtain rfl : c0 = c := by simpa using h
          exact Or.inl (List.mem_cons_self c0 rest)
        · rw [if_neg hbr] at h
          rcases ih _ beta _ _ c h with hm | hm
          · exact Or.inl (List.mem_cons_of_mem c0 hm)
          · obtain rfl : c0 = c := by simpa using hm
            exact Or.inl (List.mem_cons_self c0 rest)
      · rw [if_neg hlt] at h
        by_cases hbr : beta ≤ max alpha (bm, bs).2
        · rw [if_pos hbr] at h
          exact Or.inr h
        · rw [if_neg hbr] at h
          rcases ih _ beta _ _ c h with hm | hm
          · exact Or.inl (List.mem_cons_of_mem c0 hm)
          · exact Or.inr hm

theorem min_loop_fst_mem (b : Board) (ai : Player)
    (recur : Board → EInt → EInt → Option Nat × EInt) :
    ∀ (cs : List Nat) (alpha beta : EInt) (bm : Option Nat) (bs : EInt) (c : Nat),
      (min_loop b ai recur cs alpha beta bm bs).1 = some c →
      c ∈ cs ∨ bm = some c := by
  intro cs
  induction cs with
  | nil => intro alpha beta bm bs c h; exact Or.inr h
  | cons c0 rest ih =>
    intro alpha beta bm bs c h
    cases hrow : get_lowest_empty_row b c0 with
    | none =>
      simp only [min_loop, hrow] at h
      rcases ih alpha beta bm bs c h with hm | hm
      · exact Or.inl (List.mem_cons_of_mem c0 hm)
      · exact Or.inr hm
    | some r =>
      simp only [min_loop, hrow] at h
      by_cases hlt : (recur (setCell b r c0 (some (other ai))) alpha beta).2 < bs
      · rw [if_pos hlt] at h
        by_cases hbr : min beta (some c0, (recur (setCell b r c0 (some (other ai))) alpha beta).2).2 ≤ alpha
        · rw [if_pos hbr] at h
          obtain rfl : c0 = c := by simpa using h
          exact Or.inl (List.mem_cons_self c0 rest)
        · rw [if_neg hbr] at h
          rcases ih alpha _ _ _ c h with hm | hm
          · exact Or.inl (List.mem_cons_of_mem c0 hm)
          · obtain rfl : c0 = c := by simpa using hm
            exact Or.inl (List.mem_cons_self c0 rest)
      · rw [if_neg hlt] at h
        by_cases hbr : min beta (bm, bs).2 ≤ alpha
        · rw [if_pos hbr] at h
          exact Or.inr h
        · rw [if_neg hbr] at h
          rcases ih alpha _ _ _ c h with hm | hm
          · exact Or.inl (List.mem_cons_of_mem c0 hm)
          · exact Or.inr hm

theorem minimax_fst_mem (ai : Player) (d : Nat) (b : Board) (alpha beta : EInt)
    (mx : Bool) (c : Nat)
    (h : (minimax_agent ai d b alpha beta mx).1 = some c) :
    c ∈ ordered_moves b := by
  cases d with
  | zero =>
    unfold minimax_agent at h
    split_ifs at h
  | succ n =>
    simp only [minimax_agent] at h
    by_cases h1 : (check_winner b ai).isSome = true
    · rw [if_pos h1] at h; simp at h
    rw [if_neg h1] at h
    by_cases h2 : (check_winner b (other ai)).isSome = true
    · rw [if_pos h2] at h; simp at h
    rw [if_neg h2] at h
    by_cases h3 : is_full b = true
    · rw [if_pos h3] at h; simp at h
    rw [if_neg h3] at h
    cases mx with
    | true =>
      rw [if_pos rfl] at h
      rcases max_loop_fst_mem b ai _ (ordered_moves b) alpha beta none EInt.negInf c h
        with hm | hm
      · exact hm
      · exact absurd hm (by simp)
    | false =>
      rw [if_neg (by simp)] at h
      rcases min_loop_fst_mem b ai _ (ordered_moves b) alpha beta none EInt.posInf c h
        with hm | hm
      · exact hm
      · exact absurd hm (by simp)

/-- C7: whenever at least one legal move exists, `minimax_agent_move`
returns a column in `[0, 6]` that `is_valid_move` accepts on the current
board, whether it comes from the minimax search or from the random
fallback. -/
theorem best_move_valid (ai : Player) (b : Board) (pick : Nat)
    (h : ∃ c, c < 7 ∧ is_valid_move b c = true) :
    ∃ c, minimax_agent_move ai b pick = some c ∧ c ≤ 6 ∧ is_valid_move b c = true := by
  unfold minimax_agent_move
  cases hm : (minimax_agent ai SEARCH_DEPTH b EInt.negInf EInt.posInf true).1 with
  | some c =>
    have hmem := minimax_fst_mem ai SEARCH_DEPTH b EInt.negInf EInt.posInf true c hm
    have hval : is_valid_move b c = true := (List.mem_filter.mp hmem).2
    have hp : c ∈ priority_order := (List.mem_filter.mp hmem).1
    have hle : c ≤ 6 := by
      have hcases : c = 3 ∨ c = 2 ∨ c = 4 ∨ c = 1 ∨ c = 5 ∨ c = 0 ∨ c = 6 := by
        simpa [priority_order] using hp
      omega
    exact ⟨c, rfl, hle, hval⟩
  | none =>
    obtain ⟨c0, hc0, hval0⟩ := h
    have hmem0 : c0 ∈ valid_moves b := by
      rw [valid_moves, List.mem_filter, List.mem_range]
      exact ⟨hc0, hval0⟩
    have hne : valid_moves b ≠ [] := List.ne_nil_of_mem hmem0
    have hlen : 0 < (valid_moves b).length := List.length_pos.mpr hne
    have hidx : pick % (valid_moves b).length < (valid_moves b).length :=
      Nat.mod_lt pick hlen
    have hget : (valid_moves b).getD (pick % (valid_moves b).length) 0 ∈ valid_moves b := by
      rw [List.getD_eq_getElem?_getD, List.getElem?_eq_getElem hidx]
      exact List.getElem_mem hidx
    obtain ⟨hcm, hcv⟩ := List.mem_filter.mp hget
    rw [List.mem_range] at hcm
    have hcm7 : (valid_moves b).getD (pick % (valid_moves b).length) 0 < 7 := hcm
    refine ⟨(valid_moves b).getD (pick % (valid_moves b).length) 0, ?_, by omega, hcv⟩
    simp only [random_agent]
    rw [if_neg (by simpa [List.isEmpty_iff] using hne)]

/-- Witness for C7 on the board whose only open column is column 0. -/
theorem best_move_valid_witness :
    (∃ c, c < 7 ∧ is_valid_move oneColumnBoard c = true) ∧
    (∃ c, minimax_agent_move Player.p1 oneColumnBoard 0 = some c ∧ c ≤ 6 ∧
      is_valid_move oneColumnBoard c = true) :=
  ⟨⟨0, by decide, by decide⟩,
    best_move_valid Player.p1 oneColumnBoard 0 ⟨0, by decide, by decide⟩⟩

theorem ref_max_loop_ge (b : Board) (ai : Player) (recur : Board → Option Nat × EInt) :
    ∀ (cs : List Nat) (bm : Option Nat) (bs : EInt),
      bs ≤ (ref_max_loop b ai recur cs bm bs).2 := by
  intro cs
  induction cs with
  | nil => intro bm bs; exact le_refl bs
  | cons c rest ih =>
    intro bm bs
    cases hrow : get_lowest_empty_row b c with
    | none => simp only [ref_max_loop, hrow]; exact ih bm bs
    | some r =>
      simp only [ref_max_loop, hrow]
      by_cases hlt : bs < (recur (setCell b r c (some ai))).2
      · rw [if_pos hlt]
        exact le_trans (le_of_lt hlt) (ih _ _)
      · rw [if_neg hlt]
        exact ih bm bs

theorem ref_max_loop_top (b : Board) (ai : Player) (recur : Board → Option Nat × EInt) :
    ∀ (cs : List Nat) (bm : Option Nat),
      ref_max_loop b ai recur cs bm EInt.posInf = (bm, EInt.posInf) := by
  intro cs
  induction cs with
  | nil => intro bm; rfl
  | cons c rest ih =>
    intro bm
    cases hrow : get_lowest_empty_row b c with
    | none => simp only [ref_max_loop, hrow]; exact ih bm
    | some r =>
      simp only [ref_max_loop, hrow]
      rw [if_neg (not_lt.mpr (EInt.le_posInf _))]
      exact ih bm

theorem ref_min_loop_le (b : Board) (ai : Player) (recur : Board → Option Nat × EInt) :
    ∀ (cs : List Nat) (bm : Option Nat) (bs : EInt),
      (ref_min_loop b ai recur cs bm bs).2 ≤ bs := by
  intro cs
  induction cs with
  | nil => intro bm bs; exact le_refl bs
  | cons c rest ih =>
    intro bm bs
    cases hrow : get_lowest_empty_row b c with
    | none => simp only [ref_min_loop, hrow]; exact ih bm bs
    | some r =>
      simp only [ref_min_loop, hrow]
      by_cases hlt : (recur (setCell b r c (some (other ai)))).2 < bs
      · rw [if_pos hlt]
        exact le_trans (ih _ _) (le_of_lt hlt)
      · rw [if_neg hlt]
        exact ih bm bs

theorem ref_min_loop_bot (b : Board) (ai : Player) (recur : Board → Option Nat × EInt) :
    ∀ (cs : List Nat) (bm : Option Nat),
      ref_min_loop b ai recur cs bm EInt.negInf = (bm, EInt.negInf) := by
  intro cs
  induction cs with
  | nil => intro bm; rfl
  | cons c rest ih =>
    intro bm
    cases hrow : get_lowest_empty_row b c with
    | none => simp only [ref_min_loop, hrow]; exact ih bm
    | some r =>
      simp only [ref_min_loop, hrow]
      rw [if_neg (not_lt.mpr (EInt.negInf_le _))]
      exact ih bm

theorem max_loop_cons (b : Board) (ai : Player)
    (f : Board → EInt → EInt → Option Nat × EInt) (c : Nat) (rest : List Nat)
    (alpha beta : EInt) (bm : Option Nat) (bs : EInt) (r : Nat)
    (hrow : get_lowest_empty_row b c = some r) :
    max_loop b ai f (c :: rest) alpha beta bm bs =
      if bs < (f (setCell b r c (some ai)) alpha beta).2 then
        (if beta ≤ max alpha (f (setCell b r c (some ai)) alpha beta).2 then
          (some c, (f (setCell b r c (some ai)) alpha beta).2)
        else max_loop b ai f rest (max alpha (f (setCell b r c (some ai)) alpha beta).2)
          beta (some c) (f (setCell b r c (some ai)) alpha beta).2)
      else
        (if beta ≤ max alpha bs then (bm, bs)
        else max_loop b ai f rest (max alpha bs) beta bm bs) := by
  simp only [max_loop, hrow]
  by_cases hlt : bs < (f (setCell b r c (some ai)) alpha beta).2
  · simp only [if_pos hlt]
  · simp only [if_neg hlt]

theorem ref_max_loop_cons (b : Board) (ai : Player)
    (g : Board → Option Nat × EInt) (c : Nat) (rest : List Nat)
    (bm : Option Nat) (bs : EInt) (r : Nat)
    (hrow : get_lowest_empty_row b c = some r) :
    ref_max_loop b ai g (c :: rest) bm bs =
      if bs < (g (setCell b r c (some ai))).2 then
        ref_max_loop b ai g rest (some c) (g (setCell b r c (some ai))).2
      else ref_max_loop b ai g rest bm bs := by
  simp only [ref_max_loop, hrow]

theorem min_loop_cons (b : Board) (ai : Player)
    (f : Board → EInt → EInt → Option Nat × EInt) (c : Nat) (rest : List Nat)
    (alpha beta : EInt) (bm : Option Nat) (bs : EInt) (r : Nat)
    (hrow : get_lowest_empty_row b c = some r) :
    min_loop b ai f (c :: rest) alpha beta bm bs =
      if (f (setCell b r c (some (other ai))) alpha beta).2 < bs then
        (if min beta (f (setCell b r c (some (other ai))) alpha beta).2 ≤ alpha then
          (some c, (f (setCell b r c (some (other ai))) alpha beta).2)
        else min_loop b ai f rest alpha
          (min beta (f (setCell b r c (some (other ai))) alpha beta).2)
          (some c) (f (setCell b r c (some (other ai))) alpha beta).2)
      else
        (if min beta bs ≤ alpha then (bm, bs)
        else min_loop b ai f rest alpha (min beta bs) bm bs) := by
  simp only [min_loop, hrow]
  by_cases hlt : (f (setCell b r c (some (other ai))) alpha beta).2 < bs
  · simp only [if_pos hlt]
  · simp only [if_neg hlt]

theorem ref_min_loop_cons (b : Board) (ai : Player)
    (g : Board → Option Nat × EInt) (c : Nat) (rest : List Nat)
    (bm : Option Nat) (bs : EInt) (r : Nat)
    (hrow : get_lowest_empty_row b c = some r) :
    ref_min_loop b ai g (c :: rest) bm bs =
      if (g (setCell b r c (some (other ai)))).2 < bs then
        ref_min_loop b ai g rest (some c) (g (setCell b r c (some (other ai)))).2
      else ref_min_loop b ai g rest bm bs := by
  simp only [ref_min_loop, hrow]

theorem max_loop_ab (b : Board) (ai : Player)
    (f : Board → EInt → EInt → Option Nat × EInt)
    (g : Board → Option Nat × EInt)
    (hfg : ABGuarantee (fun b' a' b'' => (f b' a' b'').2) (fun b' => (g b').2))
    (alpha0 beta : EInt) :
    ∀ (cs : List Nat) (bs : EInt) (bm bmR : Option Nat) (bsR : EInt),
      max alpha0 bs < beta → bsR ≤ bs → (alpha0 < bs → bs = bsR) →
      ((max_loop b ai f cs (max alpha0 bs) beta bm bs).2 ≤ alpha0 →
        (ref_max_loop b ai g cs bmR bsR).2 ≤
          (max_loop b ai f cs (max alpha0 bs) beta bm bs).2) ∧
      (beta ≤ (max_loop b ai f cs (max alpha0 bs) beta bm bs).2 →
        (max_loop b ai f cs (max alpha0 bs) beta bm bs).2 ≤
          (ref_max_loop b ai g cs bmR bsR).2) ∧
      (alpha0 < (max_loop b ai f cs (max alpha0 bs) beta bm bs).2 →
        (max_loop b ai f cs (max alpha0 bs) beta bm bs).2 < beta →
        (max_loop b ai f cs (max alpha0 bs) beta bm bs).2 =
          (ref_max_loop b ai g cs bmR bsR).2) := by
  intro cs
  induction cs with
  | nil =>
    intro bs bm bmR bsR hw hR hE
    refine ⟨fun _ => hR, fun hv => ?_, fun h1 _ => hE h1⟩
    exact absurd (lt_of_le_of_lt (le_trans hv (le_max_right alpha0 bs)) hw)
      (lt_irrefl beta)
  | cons c rest ih =>
    intro bs bm bmR bsR hw hR hE
    cases hrow : get_lowest_empty_row b c with
    | none =>
      simp only [max_loop, ref_max_loop, hrow]
      exact ih bs bm bmR bsR hw hR hE
    | some r =>
      rw [max_loop_cons b ai f c rest (max alpha0 bs) beta bm bs r hrow,
        ref_max_loop_cons b ai g c rest bmR bsR r hrow]
      have P1 : (f (setCell b r c (some ai)) (max alpha0 bs) beta).2 ≤ max alpha0 bs →
          (g (setCell b r c (some ai))).2 ≤
            (f (setCell b r c (some ai)) (max alpha0 bs) beta).2 :=
        (hfg (setCell b r c (some ai)) (max alpha0 bs) beta hw).1
      have P2 : beta ≤ (f (setCell b r c (some ai)) (max alpha0 bs) beta).2 →
          (f (setCell b r c (some ai)) (max alpha0 bs) beta).2 ≤
            (g (setCell b r c (some ai))).2 :=
        (hfg (setCell b r c (some ai)) (max alpha0 bs) beta hw).2.1
      have P3 : max alpha0 bs < (f (setCell b r c (some ai)) (max alpha0 bs) beta).2 →
          (f (setCell b r c (some ai)) (max alpha0 bs) beta).2 < beta →
          (f (setCell b r c (some ai)) (max alpha0 bs) beta).2 =
            (g (setCell b r c (some ai))).2 :=
        (hfg (setCell b r c (some ai)) (max alpha0 bs) beta hw).2.2
      set s := (f (setCell b r c (some ai)) (max alpha0 bs) beta).2 with hs
      set m := (g (setCell b r c (some ai))).2 with hm
      by_cases hlt : bs < s
      · rw [if_pos hlt]
        by_cases hbr : beta ≤ max (max alpha0 bs) s
        · rw [if_pos hbr]
          have hsb : beta ≤ s := by
            rcases max_cases (max alpha0 bs) s with ⟨he, _⟩ | ⟨he, _⟩
            · rw [he] at hbr
              exact absurd (lt_of_lt_of_le hw hbr) (lt_irrefl _)
            · rw [he] at hbr
              exact hbr
          have hsm : s ≤ m := P2 hsb
          have hRlt : bsR < m := lt_of_le_of_lt hR (lt_of_lt_of_le hlt hsm)
          rw [if_pos hRlt]
          have hge := ref_max_loop_ge b ai g rest (some c) m
          refine ⟨fun hv => ?_, fun _ => le_trans hsm hge, fun _ h2 => ?_⟩
          · have hba : beta ≤ max alpha0 bs :=
              le_trans hsb (le_trans hv (le_max_left alpha0 bs))
            exact absurd (lt_of_lt_of_le hw hba) (lt_irrefl _)
          · exact absurd (lt_of_lt_of_le h2 hsb) (lt_irrefl _)
        · rw [if_neg hbr]
          by_cases hA : s ≤ max alpha0 bs
          · have hsa : s ≤ alpha0 := by
              rcases max_cases alpha0 bs with ⟨he, _⟩ | ⟨he, _⟩
              · rw [he] at hA
                exact hA
              · rw [he] at hA
                exact absurd hA (not_le.mpr hlt)
            have hmle : m ≤ s := P1 hA
            have e3 : max alpha0 bs = alpha0 := by
              rcases max_cases alpha0 bs with ⟨he, _⟩ | ⟨he, hab⟩
              · exact he
              · exact absurd (lt_trans (lt_of_lt_of_le hlt hsa) hab) (lt_irrefl bs)
            have e1 : max (max alpha0 bs) s = max alpha0 s := by
              rw [e3]
            rw [e1]
            have hw' : max alpha0 s < beta := by
              rw [max_eq_left hsa]
              rw [e3] at hw
              exact hw
            by_cases hRlt : bsR < m
            · rw [if_pos hRlt]
              exact ih s (some c) (some c) m hw' hmle
                (fun ha => absurd ha (not_lt.mpr hsa))
            · rw [if_neg hRlt]
              exact ih s (some c) bmR bsR hw'
                (le_of_lt (lt_of_le_of_lt hR hlt))
                (fun ha => absurd ha (not_lt.mpr hsa))
          · have hgt : max alpha0 bs < s := not_le.mp hA
            have hlt2 : max (max alpha0 bs) s < beta := not_le.mp hbr
            have hsb2 : s < beta :=
              lt_of_le_of_lt (le_max_right (max alpha0 bs) s) hlt2
            have hexact : s = m := P3 hgt hsb2
            have e2 : max alpha0 s = s :=
              max_eq_right (le_trans (le_max_left alpha0 bs) (le_of_lt hgt))
            have e1 : max (max alpha0 bs) s = max alpha0 s := by
              rw [max_eq_right (le_of_lt hgt), e2]
            rw [e1]
            have hw' : max alpha0 s < beta := by
              rw [e2]
              exact hsb2
            have hRlt : bsR < m := by
              rw [← hexact]
              exact lt_of_le_of_lt (le_trans hR (le_max_right alpha0 bs)) hgt
            rw [if_pos hRlt]
            exact ih s (some c) (some c) m hw' (le_of_eq hexact.symm) (fun _ => hexact)
      · rw [if_neg hlt]
        have hsle : s ≤ bs := le_of_not_lt hlt
        rw [max_eq_left (le_max_right alpha0 bs)]
        rw [if_neg (not_le.mpr hw)]
        have hmle : m ≤ s := P1 (le_trans hsle (le_max_right alpha0 bs))
        by_cases hRlt : bsR < m
        · rw [if_pos hRlt]
          have hnlt : ¬ alpha0 < bs := by
            intro ha
            have : m ≤ bsR := le_trans hmle (le_trans hsle (le_of_eq (hE ha)))
            exact absurd hRlt (not_lt.mpr this)
          exact ih bs bm (some c) m hw (le_trans hmle hsle)
            (fun ha => absurd ha hnlt)
        · rw [if_neg hRlt]
          exact ih bs bm bmR bsR hw hR hE

theorem min_loop_ab (b : Board) (ai : Player)
    (f : Board → EInt → EInt → Option Nat × EInt)
    (g : Board → Option Nat × EInt)
    (hfg : ABGuarantee (fun b' a' b'' => (f b' a' b'').2) (fun b' => (g b').2))
    (alpha beta0 : EInt) :
    ∀ (cs : List Nat) (bs : EInt) (bm bmR : Option Nat) (bsR : EInt),
      alpha < min beta0 bs → bs ≤ bsR → (bs < beta0 → bs = bsR) →
      ((min_loop b ai f cs alpha (min beta0 bs) bm bs).2 ≤ alpha →
        (ref_min_loop b ai g cs bmR bsR).2 ≤
          (min_loop b ai f cs alpha (min beta0 bs) bm bs).2) ∧
      (beta0 ≤ (min_loop b ai f cs alpha (min beta0 bs) bm bs).2 →
        (min_loop b ai f cs alpha (min beta0 bs) bm bs).2 ≤
          (ref_min_loop b ai g cs bmR bsR).2) ∧
      (alpha < (min_loop b ai f cs alpha (min beta0 bs) bm bs).2 →
        (min_loop b ai f cs alpha (min beta0 bs) bm bs).2 < beta0 →
        (min_loop b ai f cs alpha (min beta0 bs) bm bs).2 =
          (ref_min_loop b ai g cs bmR bsR).2) := by
  intro cs
  induction cs with
  | nil =>
    intro bs bm bmR bsR hw hR hE
    refine ⟨fun hv => ?_, fun _ => hR, fun _ h2 => hE h2⟩
    exact absurd (lt_of_lt_of_le hw (le_trans (min_le_right beta0 bs) hv))
      (lt_irrefl alpha)
  | cons c rest ih =>
    intro bs bm bmR bsR hw hR hE
    cases hrow : get_lowest_empty_row b c with
    | none =>
      simp only [min_loop, ref_min_loop, hrow]
      exact ih bs bm bmR bsR hw hR hE
    | some r =>
      rw [min_loop_cons b ai f c rest alpha (min beta0 bs) bm bs r hrow,
        ref_min_loop_cons b ai g c rest bmR bsR r hrow]
      have P1 : (f (setCell b r c (some (other ai))) alpha (min beta0 bs)).2 ≤ alpha →
          (g (setCell b r c (some (other ai)))).2 ≤
            (f (setCell b r c (some (other ai))) alpha (min beta0 bs)).2 :=
        (hfg (setCell b r c (some (other ai))) alpha (min beta0 bs) hw).1
      have P2 : min beta0 bs ≤ (f (setCell b r c (some (other ai))) alpha (min beta0 bs)).2 →
          (f (setCell b r c (some (other ai))) alpha (min beta0 bs)).2 ≤
            (g (setCell b r c (some (other ai)))).2 :=
        (hfg (setCell b r c (some (other ai))) alpha (min beta0 bs) hw).2.1
      have P3 : alpha < (f (setCell b r c (some (other ai))) alpha (min beta0 bs)).2 →
          (f (setCell b r c (some (other ai))) alpha (min beta0 bs)).2 < min beta0 bs →
          (f (setCell b r c (some (other ai))) alpha (min beta0 bs)).2 =
            (g (setCell b r c (some (other ai)))).2 :=
        (hfg (setCell b r c (some (other ai))) alpha (min beta0 bs) hw).2.2
      set s := (f (setCell b r c (some (other ai))) alpha (min beta0 bs)).2 with hs
      set m := (g (setCell b r c (some (other ai)))).2 with hm
      by_cases hlt : s < bs
      · rw [if_pos hlt]
        by_cases hbr : min (min beta0 bs) s ≤ alpha
        · rw [if_pos hbr]
          have hsa : s ≤ alpha := by
            rcases min_cases (min beta0 bs) s with ⟨he, _⟩ | ⟨he, _⟩
            · rw [he] at hbr
              exact absurd (lt_of_lt_of_le hw hbr) (lt_irrefl alpha)
            · rw [he] at hbr
              exact hbr
          have hms : m ≤ s := P1 hsa
          have hRlt : m < bsR :=
            lt_of_le_of_lt hms
              (lt_of_le_of_lt hsa (lt_of_lt_of_le hw (le_trans (min_le_right beta0 bs) hR)))
          rw [if_pos hRlt]
          have hle := ref_min_loop_le b ai g rest (some c) m
          refine ⟨fun _ => le_trans hle hms, fun hv => ?_, fun h1 _ => ?_⟩
          · have : beta0 ≤ alpha := le_trans hv hsa
            exact absurd (lt_of_lt_of_le hw (le_trans (min_le_left beta0 bs) this))
              (lt_irrefl alpha)
          · exact absurd (lt_of_lt_of_le h1 hsa) (lt_irrefl alpha)
        · rw [if_neg hbr]
          by_cases hB : min beta0 bs ≤ s
          · have hb0 : beta0 ≤ s := by
              rcases min_cases beta0 bs with ⟨he, _⟩ | ⟨he, _⟩
              · rw [he] at hB
                exact hB
              · rw [he] at hB
                exact absurd hB (not_le.mpr hlt)
            have hsm : s ≤ m := P2 hB
            have e3 : min beta0 bs = beta0 := by
              rcases min_cases beta0 bs with ⟨he, _⟩ | ⟨he, hab⟩
              · exact he
              · exact absurd (lt_trans hab (lt_of_le_of_lt hb0 hlt)) (lt_irrefl bs)
            have e1 : min (min beta0 bs) s = min beta0 s := by
              rw [e3]
            rw [e1]
            have hw' : alpha < min beta0 s := by
              rw [min_eq_left hb0]
              rw [e3] at hw
              exact hw
            by_cases hRlt : m < bsR
            · rw [if_pos hRlt]
              exact ih s (some c) (some c) m hw' hsm
                (fun ha => absurd ha (not_lt.mpr hb0))
            · rw [if_neg hRlt]
              exact ih s (some c) bmR bsR hw'
                (le_of_lt (lt_of_lt_of_le hlt hR))
                (fun ha => absurd ha (not_lt.mpr hb0))
          · have hgt : s < min beta0 bs := not_le.mp hB
            have hlt2 : alpha < min (min beta0 bs) s := not_le.mp hbr
            have has : alpha < s :=
              lt_of_lt_of_le hlt2 (min_le_right (min beta0 bs) s)
            have hexact : s = m := P3 has hgt
            have e2 : min beta0 s = s :=
              min_eq_right (le_trans (le_of_lt hgt) (min_le_left beta0 bs))
            have e1 : min (min beta0 bs) s = min beta0 s := by
              rw [min_eq_right (le_of_lt hgt), e2]
            rw [e1]
            have hw' : alpha < min beta0 s := by
              rw [e2]
              exact has
            have hRlt : m < bsR := by
              rw [← hexact]
              exact lt_of_lt_of_le (lt_of_lt_of_le hgt (min_le_right beta0 bs)) hR
            rw [if_pos hRlt]
            exact ih s (some c) (some c) m hw' (le_of_eq hexact) (fun _ => hexact)
      · rw [if_neg hlt]
        have hsge : bs ≤ s := le_of_not_lt hlt
        rw [min_eq_left (min_le_right beta0 bs)]
        rw [if_neg (not_le.mpr hw)]
        have hsm : s ≤ m := P2 (le_trans (min_le_right beta0 bs) hsge)
        by_cases hRlt : m < bsR
        · rw [if_pos hRlt]
          have hnlt : ¬ bs < beta0 := by
            intro ha
            have : bsR ≤ m := le_trans (le_of_eq (hE ha).symm) (le_trans hsge hsm)
            exact absurd hRlt (not_lt.mpr this)
          exact ih bs bm (some c) m hw (le_trans hsge hsm)
            (fun ha => absurd ha hnlt)
        · rw [if_neg hRlt]
          exact ih bs bm bmR bsR hw hR hE

theorem minimax_depth0_eq (ai : Player) (b : Board) (alpha beta : EInt) (mx : Bool) :
    minimax_agent ai 0 b alpha beta mx = minimax_ref ai 0 b mx := by
  simp only [minimax_agent, minimax_ref]

theorem abguarantee_of_eq (f : Board → EInt → EInt → EInt) (g : Board → EInt)
    (h : ∀ b' alpha beta, f b' alpha beta = g b') : ABGuarantee f g := by
  intro b' alpha beta hab
  refine ⟨fun _ => le_of_eq (h b' alpha beta).symm,
    fun _ => le_of_eq (h b' alpha beta), fun _ _ => h b' alpha beta⟩

theorem minimax_ab_node (ai : Player) :
    ∀ (d : Nat) (mx : Bool),
      ABGuarantee (fun b' a' b'' => (minimax_agent ai d b' a' b'' mx).2)
        (fun b' => (minimax_ref ai d b' mx).2) := by
  intro d
  induction d with
  | zero =>
    intro mx
    exact abguarantee_of_eq _ _ fun b' alpha beta => by
      rw [minimax_depth0_eq ai b' alpha beta mx]
  | succ n ih =>
    intro mx b' alpha beta hab
    simp only [minimax_agent, minimax_ref]
    by_cases h1 : (check_winner b' ai).isSome = true
    · rw [if_pos h1, if_pos h1]
      exact ⟨fun _ => le_refl _, fun _ => le_refl _, fun _ _ => rfl⟩
    rw [if_neg h1, if_neg h1]
    by_cases h2 : (check_winner b' (other ai)).isSome = true
    · rw [if_pos h2, if_pos h2]
      exact ⟨fun _ => le_refl _, fun _ => le_refl _, fun _ _ => rfl⟩
    rw [if_neg h2, if_neg h2]
    by_cases h3 : is_full b' = true
    · rw [if_pos h3, if_pos h3]
      exact ⟨fun _ => le_refl _, fun _ => le_refl _, fun _ _ => rfl⟩
    rw [if_neg h3, if_neg h3]
    cases mx with
    | true =>
      rw [if_pos rfl, if_pos rfl]
      have inst := max_loop_ab b' ai
        (fun bb a' b'' => minimax_agent ai n bb a' b'' false)
        (fun bb => minimax_ref ai n bb false)
        (ih false) alpha beta (ordered_moves b') EInt.negInf none none EInt.negInf
        (by rw [EInt.max_negInf]; exact hab) (le_refl _)
        (fun ha => absurd ha (EInt.not_lt_negInf alpha))
      rw [EInt.max_negInf] at inst
      exact inst
    | false =>
      rw [if_neg (by simp), if_neg (by simp)]
      have inst := min_loop_ab b' ai
        (fun bb a' b'' => minimax_agent ai n bb a' b'' true)
        (fun bb => minimax_ref ai n bb true)
        (ih true) alpha beta (ordered_moves b') EInt.posInf none none EInt.posInf
        (by rw [EInt.min_posInf]; exact hab) (le_refl _)
        (fun ha => absurd ha (EInt.not_posInf_lt beta))
      rw [EInt.min_posInf] at inst
      exact inst

theorem max_loop_root (b : Board) (ai : Player)
    (f : Board → EInt → EInt → Option Nat × EInt)
    (g : Board → Option Nat × EInt)
    (hfg : ABGuarantee (fun b' a' b'' => (f b' a' b'').2) (fun b' => (g b').2)) :
    ∀ (cs : List Nat) (bm : Option Nat) (bs : EInt), bs < EInt.posInf →
      max_loop b ai f cs bs EInt.posInf bm bs = ref_max_loop b ai g cs bm bs := by
  intro cs
  induction cs with
  | nil => intro bm bs _; rfl
  | cons c rest ih =>
    intro bm bs htop
    cases hrow : get_lowest_empty_row b c with
    | none =>
      simp only [max_loop, ref_max_loop, hrow]
      exact ih bm bs htop
    | some r =>
      rw [max_loop_cons b ai f c rest bs EInt.posInf bm bs r hrow,
        ref_max_loop_cons b ai g c rest bm bs r hrow]
      have P1 : (f (setCell b r c (some ai)) bs EInt.posInf).2 ≤ bs →
          (g (setCell b r c (some ai))).2 ≤ (f (setCell b r c (some ai)) bs EInt.posInf).2 :=
        (hfg (setCell b r c (some ai)) bs EInt.posInf htop).1
      have P2 : EInt.posInf ≤ (f (setCell b r c (some ai)) bs EInt.posInf).2 →
          (f (setCell b r c (some ai)) bs EInt.posInf).2 ≤ (g (setCell b r c (some ai))).2 :=
        (hfg (setCell b r c (some ai)) bs EInt.posInf htop).2.1
      have P3 : bs < (f (setCell b r c (some ai)) bs EInt.posInf).2 →
          (f (setCell b r c (some ai)) bs EInt.posInf).2 < EInt.posInf →
          (f (setCell b r c (some ai)) bs EInt.posInf).2 = (g (setCell b r c (some ai))).2 :=
        (hfg (setCell b r c (some ai)) bs EInt.posInf htop).2.2
      set s := (f (setCell b r c (some ai)) bs EInt.posInf).2 with hs
      set m := (g (setCell b r c (some ai))).2 with hm
      by_cases hlt : bs < s
      · rw [if_pos hlt]
        by_cases hhi : s = EInt.posInf
        · have hms : s ≤ m := P2 (le_of_eq hhi.symm)
          have hm_top : m = EInt.posInf := le_antisymm (EInt.le_posInf m) (hhi ▸ hms)
          have hbr : EInt.posInf ≤ max bs s := by
            rw [hhi]
            exact le_max_right bs EInt.posInf
          rw [if_pos hbr]
          have hRlt : bs < m := by
            rw [hm_top]
            exact htop
          rw [if_pos hRlt, hm_top, ref_max_loop_top, hhi]
        · have hs_top : s < EInt.posInf := lt_of_le_of_ne (EInt.le_posInf s) hhi
          have hexact : s = m := P3 hlt hs_top
          have hbr : ¬ EInt.posInf ≤ max bs s := by
            refine not_le.mpr ?_
            rcases max_cases bs s with ⟨he, _⟩ | ⟨he, _⟩ <;> rw [he]
            · exact htop
            · exact hs_top
          rw [if_neg hbr, max_eq_right (le_of_lt hlt)]
          have hRlt : bs < m := hexact ▸ hlt
          rw [if_pos hRlt, ← hexact]
          exact ih (some c) s hs_top
      · rw [if_neg hlt]
        have hbr : ¬ EInt.posInf ≤ max bs bs := by
          rw [max_self]
          exact not_le.mpr htop
        rw [if_neg hbr, max_self]
        have hmle : m ≤ s := P1 (le_of_not_lt hlt)
        have hRlt : ¬ bs < m := not_lt.mpr (le_trans hmle (le_of_not_lt hlt))
        rw [if_neg hRlt]
        exact ih bm bs htop

/-- C2: with the full window (`alpha = -infinity`, `beta = +infinity`) and
`maximising_player = True`, the alpha-beta search returns exactly the
`(move, score)` pair of the exhaustive minimax reference that explores every
legal move in the same `[3,2,4,1,5,0,6]` order without pruning — pruning
never changes the result, at any depth and on any board. -/
theorem minimax_pruning_exact :
    ∀ (ai : Player) (d : Nat) (b : Board),
      minimax_agent ai d b EInt.negInf EInt.posInf true = minimax_ref ai d b true := by
  intro ai d b
  cases d with
  | zero => exact minimax_depth0_eq ai b EInt.negInf EInt.posInf true
  | succ n =>
    simp only [minimax_agent, minimax_ref]
    by_cases h1 : (check_winner b ai).isSome = true
    · rw [if_pos h1, if_pos h1]
    rw [if_neg h1, if_neg h1]
    by_cases h2 : (check_winner b (other ai)).isSome = true
    · rw [if_pos h2, if_pos h2]
    rw [if_neg h2, if_neg h2]
    by_cases h3 : is_full b = true
    · rw [if_pos h3, if_pos h3]
    rw [if_neg h3, if_neg h3]
    simp only [if_true]
    exact max_loop_root b ai _ _ (minimax_ab_node ai n false) (ordered_moves b) none
      EInt.negInf (by decide)

theorem sortByKey_filter (q : Nat → Bool) :
    sortByKey (fun c => priority_order.indexOf c) ((List.range 7).filter q) =
      priority_order.filter q := by
  have h7 : List.range 7 = [0, 1, 2, 3, 4, 5, 6] := rfl
  rw [h7]
  cases h0 : q 0 <;> cases h1 : q 1 <;> cases h2 : q 2 <;> cases h3 : q 3 <;>
    cases h4 : q 4 <;> cases h5 : q 5 <;> cases h6 : q 6 <;>
    simp only [priority_order, List.filter_cons, List.filter_nil,
      h0, h1, h2, h3, h4, h5, h6, if_true, if_false] <;> rfl

/-- Line 188 of game.py, `sorted(valid_moves, key=priority_order.index)`,
enumerates the valid columns in the order `[3,2,4,1,5,0,6]`: the stable sort
by pairwise-distinct priority keys is the priority list filtered to the valid
columns, which is the `ordered_moves` the search definitions use. -/
theorem sorted_moves_eq_ordered (b : Board) : sorted_moves b = ordered_moves b := by
  unfold sorted_moves ordered_moves valid_moves
  exact sortByKey_filter fun c => is_valid_move b c
